import Mathlib

/-!
Shallow embedding of `lbrynet/stream/downloader.py`.

The module is single-threaded cooperative (asyncio): a coroutine's state can
change only at explicit suspension points.  We embed each coroutine as a pure
function over an explicit downloader state; what the environment (the
accumulator task, the dispatched per-peer fetch tasks, the chunk store) does
while the scheduler loop is suspended at its `await` points is supplied as a
list of `Round`s, one per iteration of the acquisition loop.  Machinery that
the claims never observe (logging, the wire protocol, file output) is elided;
everything the claims mention (pool, ledger, dispatch log, verification flags,
event flags, task lifecycle, the fan-in queue and flags) is carried explicitly.

Python peculiarities that matter are kept: `set.remove` raises `KeyError` on
a missing element (modelled by `Except PyError`), `dict` assignment inserts or
overwrites, the `running_iterators[iterator] = False` line in
`AsyncGeneratorJunction.add_generator.iterate` runs only after the `async for`
finishes normally (an exception skips it).
-/

namespace Lbrynet

/-- Peer handle identity (`lbrynet.peer.Peer` is opaque to this module; only
its identity and pool membership are observable here). -/
structure Peer where
  pid : Nat
deriving DecidableEq, Repr

/-- Blob handle as returned by `blob_manager.get_blob(blob_hash, length)`:
identified by its content hash.  Verification state lives in the downloader
state's `verified` list (the store's mutable flag). -/
structure BlobFile where
  blobHash : String
deriving DecidableEq, Repr

/-- blob_manager.get_blob: the store's handle for a hash (keyed by hash). -/
def storeHandle (h : String) : BlobFile := ⟨h⟩

/-- Python exceptions that the embedded code can raise. -/
inductive PyError
  | keyError
  | timeoutError
deriving DecidableEq, Repr

/-- Outcome of `peer.request_blobs(...)` for one dispatched fetch. -/
inductive FetchOutcome
  | success
  | timeout
deriving DecidableEq, Repr

/-- StreamDownloader._request_blob (lines 120-131), run to completion on a
given fetch outcome.  On `timeout` the handler removes the peer from the
connection pool (`set.remove`: raises `KeyError` when absent) and clears the
`has_peers` event when the pool becomes empty.  The `asyncio.TimeoutError`
itself is caught and never re-raised. -/
def requestBlob (p : Peer) (oc : FetchOutcome) (conns : List Peer) (hasPeers : Bool) :
    Except PyError (List Peer × Bool) :=
  match oc with
  | .success => .ok (conns, hasPeers)
  | .timeout =>
    if p ∈ conns then
      let conns' := conns.erase p
      .ok (conns', if conns'.isEmpty then false else hasPeers)
    else
      .error .keyError

/-- State of a `StreamDownloader` as far as the acquisition claims observe it.
`dispatchLog` is a ghost field recording every `(blob_hash, peer)` dispatch
(`self.tasks.append(self._request_blob(peer))` paired with the ledger append);
`outstanding` holds fetch coroutines already handed to `asyncio.wait` but not
yet finished (they keep running in the background). -/
structure DState where
  currentBlob : Option BlobFile
  verified : List String
  connections : List Peer
  hasPeers : Bool
  tasks : List Peer
  outstanding : List Peer
  requests : List (String × List Peer)
  dispatchLog : List (String × Peer)
deriving DecidableEq, Repr

/-- Python dict lookup `self.requests[h]` with `[]` for a missing key
(the source guards every read with an explicit presence check). -/
def ledgerGet (rs : List (String × List Peer)) (h : String) : List Peer :=
  match rs with
  | [] => []
  | (k, ps) :: rest => if k = h then ps else ledgerGet rest h

/-- `self.requests[h].append(p)`, inserting the key when absent. -/
def ledgerInsert (rs : List (String × List Peer)) (h : String) (p : Peer) :
    List (String × List Peer) :=
  match rs with
  | [] => [(h, [p])]
  | (k, ps) :: rest =>
    if k = h then (k, ps ++ [p]) :: rest else (k, ps) :: ledgerInsert rest h p

/-- Python `h in self.requests`. -/
def hasKey (rs : List (String × List Peer)) (h : String) : Bool :=
  match rs with
  | [] => false
  | (k, _) :: rest => k = h || hasKey rest h

/-- Inner loop of `_update_requests` (lines 136-139): for each pooled peer not
yet in the ledger entry for `h`, append it to the ledger, queue a
`_request_blob` coroutine, and (ghost) record the dispatch. -/
def updateRequestsAux (h : String) : List Peer → DState → DState
  | [], st => st
  | p :: rest, st =>
    if p ∈ ledgerGet st.requests h then
      updateRequestsAux h rest st
    else
      updateRequestsAux h rest
        { st with
          requests := ledgerInsert st.requests h p
          tasks := st.tasks ++ [p]
          dispatchLog := st.dispatchLog ++ [(h, p)] }

/-- StreamDownloader._update_requests (lines 133-139). -/
def updateRequests (st : DState) : DState :=
  match st.currentBlob with
  | none => st
  | some b =>
    let st1 :=
      if hasKey st.requests b.blobHash then st
      else { st with requests := st.requests ++ [(b.blobHash, [])] }
    updateRequestsAux b.blobHash st1.connections st1

/-- What the environment does while the acquisition loop is suspended at its
two `await asyncio.wait` points during one iteration: which outstanding fetch
coroutines run to completion (with which outcome), which peers the
accumulator task adds to the pool, and whether the chunk store marks the
current blob verified (its `finished_writing` event). -/
structure Round where
  fires : List (Peer × FetchOutcome)
  joins : List Peer
  verify : Bool
deriving Repr

/-- One outstanding fetch coroutine runs to completion.  A `KeyError` raised
inside the timeout handler stays inside that task: `asyncio.wait` never
surfaces task exceptions, so the downloader state is simply left unchanged. -/
def applyFire (st : DState) (f : Peer × FetchOutcome) : DState :=
  if f.1 ∈ st.outstanding then
    match requestBlob f.1 f.2 st.connections st.hasPeers with
    | .ok (c, hp) =>
      { st with outstanding := st.outstanding.erase f.1, connections := c, hasPeers := hp }
    | .error _ => { st with outstanding := st.outstanding.erase f.1 }
  else st

/-- One step of `_accumulate_connections` (lines 183-189): add a connected
peer to the pool (a `set`, so no duplicate) and set the `has_peers` event. -/
def addPeer (st : DState) (p : Peer) : DState :=
  { st with
    connections := if p ∈ st.connections then st.connections else st.connections ++ [p]
    hasPeers := true }

/-- The chunk store marks the current blob verified (its write finished). -/
def applyVerify (st : DState) (v : Bool) : DState :=
  if v then
    match st.currentBlob with
    | some b =>
      { st with
        verified := if b.blobHash ∈ st.verified then st.verified else st.verified ++ [b.blobHash] }
    | none => st
  else st

/-- Apply one round of environment activity: the fetch completions, then the
accumulator's joins, then the store's verification transition. -/
def applyRound (st : DState) (r : Round) : DState :=
  applyVerify (r.joins.foldl addPeer (r.fires.foldl applyFire st)) r.verify

/-- `blob.get_is_verified()` for the store handle of `h`. -/
def isVerified (st : DState) (h : String) : Bool :=
  st.verified.contains h

/-- Result of one iteration of the acquisition loop: either a `return
self.current_blob` statement fired, or the loop continues. -/
inductive StepResult
  | done (b : BlobFile) (st : DState)
  | next (st : DState)
deriving Repr

/-- Lines 168-172: drain `self.tasks` into `asyncio.wait`; the popped
coroutines become outstanding background tasks. -/
def popTasks (st : DState) : DState :=
  { st with tasks := [], outstanding := st.outstanding ++ st.tasks }

/-- Lines 168-176: await the drained fetch tasks and then the
`has_peers` / `finished_writing` race (the environment round happens while
suspended there), then re-check verification (line 175). -/
def awaitPhase (st : DState) (h : String) (r : Round) : StepResult :=
  let st1 := applyRound (popTasks st) r
  if isVerified st1 h then .done (st1.currentBlob.getD (storeHandle h)) st1
  else .next st1

/-- One iteration of the `while not self.current_blob.get_is_verified()` body
(lines 153-176).  The `await self.lock.acquire()` inside the second branch
never suspends in practice (no task holds the lock across an await), so the
branch body runs atomically here. -/
def loopIter (st : DState) (h : String) (r : Round) : StepResult :=
  if !st.hasPeers && !st.connections.isEmpty then
    awaitPhase (updateRequests st) h r
  else if st.hasPeers then
    awaitPhase
      (updateRequests { updateRequests { st with hasPeers := false } with hasPeers := false }) h r
  else if isVerified st h then
    .done (st.currentBlob.getD (storeHandle h)) st
  else
    awaitPhase st h r

/-- Head round for the next loop iteration; a quiet environment (nothing
fires, no joins, no verification) when the supplied schedule runs out. -/
def nextRound : List Round → Round × List Round
  | [] => (⟨[], [], false⟩, [])
  | r :: rest => (r, rest)

/-- The acquisition loop (lines 153-177), fuel-bounded: `none` means the loop
was still spinning after `fuel` iterations (it has no other exit). -/
def getBlobLoop (h : String) : Nat → List Round → DState → Option (BlobFile × DState)
  | 0, _, _ => none
  | fuel + 1, rounds, st =>
    if isVerified st h then some (st.currentBlob.getD (storeHandle h), st)
    else
      match loopIter st h (nextRound rounds).1 with
      | .done b st' => some (b, st')
      | .next st' => getBlobLoop h fuel (nextRound rounds).2 st'

/-- StreamDownloader.get_blob (lines 141-177): record the store handle as
`self.current_blob`, return at once on a cache hit (line 148), otherwise
dispatch (line 151) and enter the acquisition loop. -/
def getBlob (h : String) (fuel : Nat) (rounds : List Round) (st : DState) :
    Option (BlobFile × DState) :=
  if isVerified { st with currentBlob := some (storeHandle h) } h then
    some (storeHandle h, { st with currentBlob := some (storeHandle h) })
  else
    getBlobLoop h fuel rounds (updateRequests { st with currentBlob := some (storeHandle h) })

/-! ## Orchestrator lifecycle (`stop`, `_download`) -/

/-- asyncio task lifecycle as `stop` observes it; `notStarted` stands for the
attribute still being `None`. -/
inductive TaskState
  | notStarted
  | running
  | done
  | cancelled
deriving DecidableEq, Repr

/-- Orchestrator-level state for `StreamDownloader.stop` (lines 191-198).
`disconnectLog` is a ghost trace of every `peer.disconnect_tcp()` call ever
made; `connections` is the pool (a Python set: no duplicates in use). -/
structure OrchState where
  accumulatorTask : TaskState
  downloadTask : TaskState
  peerFinderStopped : Bool
  connections : List Peer
  disconnectLog : List Peer
deriving DecidableEq, Repr

/-- StreamDownloader.stop (lines 191-198): cancel the accumulator and driving
tasks when created and not already finished or cancelled, stop the peer
finder, then pop and disconnect every pooled peer. -/
def stop (st : OrchState) : OrchState :=
  let st1 :=
    if st.accumulatorTask = .running then { st with accumulatorTask := .cancelled } else st
  let st2 :=
    if st1.downloadTask = .running then { st1 with downloadTask := .cancelled } else st1
  let st3 := { st2 with peerFinderStopped := true }
  { st3 with connections := [], disconnectLog := st3.disconnectLog ++ st3.connections }

/-- Observable effects of `_download` (lines 200-217), in program order. -/
inductive DEffect
  | startAccumulator
  | assembleStream
  | changeFileStatus
  | finishedCallback
  | stopCall
deriving DecidableEq, Repr

/-- How the driving task's try-body terminates. -/
inductive AssemblyOutcome
  | completed
  | raised
  | cancelled
deriving DecidableEq, Repr

/-- Python `try: body finally: fin` over effect traces: the finaliser runs on
every termination of the body and the body's outcome is reported afterwards. -/
def tryFinallyTrace (body : List DEffect × AssemblyOutcome) (fin : List DEffect) :
    List DEffect × AssemblyOutcome :=
  (body.1 ++ fin, body.2)

/-- StreamDownloader._download (lines 200-213): start the accumulator, then
run the assembly body under a `finally: self.stop()`.  `bodyTrace` is how far
the try-body got before terminating with `oc` (on `completed` it reaches the
finished callback; an exception or cancellation cuts it short). -/
def downloadRun (bodyTrace : List DEffect) (oc : AssemblyOutcome) :
    List DEffect × AssemblyOutcome :=
  tryFinallyTrace (DEffect.startAccumulator :: bodyTrace, oc) [DEffect.stopCall]

/-! ## Fan-in merger (`AsyncGeneratorJunction`) -/

/-- State of an `AsyncGeneratorJunction`: the shared queue of delivered items
(items as `Nat`) and the `running_iterators` dict keyed by generator identity
in insertion order. -/
structure JState where
  queue : List Nat
  runningIterators : List (Nat × Bool)
deriving DecidableEq, Repr

/-- Python dict assignment `d[k] = v`: overwrite in place or insert at end. -/
def dictSet (d : List (Nat × Bool)) (k : Nat) (v : Bool) : List (Nat × Bool) :=
  match d with
  | [] => [(k, v)]
  | (k', v') :: rest => if k' = k then (k, v) :: rest else (k', v') :: dictSet rest k v

/-- Python dict lookup `d.get(k)`. -/
def dictGet (d : List (Nat × Bool)) (k : Nat) : Option Bool :=
  match d with
  | [] => none
  | (k', v) :: rest => if k' = k then some v else dictGet rest k

/-- AsyncGeneratorJunction.running (lines 30-32):
`any(self.running_iterators.values())`. -/
def junctionRunning (st : JState) : Bool :=
  st.runningIterators.any (fun e => e.2)

/-- AsyncGeneratorJunction.add_generator (lines 34-45), the synchronous part:
mark the generator active and schedule its `iterate` task. -/
def add_generator (st : JState) (g : Nat) : JState :=
  { st with runningIterators := dictSet st.runningIterators g true }

/-- How a source generator terminates while being driven by `iterate`. -/
inductive GenOutcome
  | exhausted
  | raised
deriving DecidableEq, Repr

/-- The `iterate` task of add_generator (lines 39-42) run to completion:
every item yielded before termination is pushed on the shared queue; the
`self.running_iterators[iterator] = False` line follows the `async for`, so
it runs only when the generator is exhausted normally — a raising generator
propagates out of the loop and the flag is never cleared. -/
def iterateGen (st : JState) (g : Nat) (items : List Nat) (oc : GenOutcome) : JState :=
  let st1 := { st with queue := st.queue ++ items }
  match oc with
  | .exhausted => { st1 with runningIterators := dictSet st1.runningIterators g false }
  | .raised => st1

/-- Result of one `__anext__` call: an item from the queue, the
`StopAsyncIteration` signal, or a suspension on the empty queue. -/
inductive AnextResult
  | item (x : Nat) (st : JState)
  | stopAsyncIteration
  | blockedOnQueue
deriving DecidableEq, Repr

/-- AsyncGeneratorJunction.__anext__ (lines 50-54): while any source is
marked running, take from the queue (awaiting if empty); otherwise raise
`StopAsyncIteration` without touching the queue. -/
def anext (st : JState) : AnextResult :=
  if junctionRunning st then
    match st.queue with
    | [] => .blockedOnQueue
    | x :: rest => .item x { st with queue := rest }
  else .stopAsyncIteration

/-- Recogniser for the completion signal. -/
def isStopSignal : AnextResult → Bool
  | .stopAsyncIteration => true
  | _ => false

/-! ## Claim-facing predicates -/

/-- Every normal return of `get_blob` hands back the store handle for the
requested hash, verified at the moment of return (`none` = the acquisition
loop is still spinning: not a success exit). -/
def returnsVerified (h : String) : Option (BlobFile × DState) → Prop
  | some (b, st') => b = storeHandle h ∧ isVerified st' h = true
  | none => True

/-- Dedup ledger invariant: every dispatch of `(h, p)` is recorded in the
ledger entry for `h`, and at most one such dispatch ever happens. -/
def dedupInv (st : DState) : Prop :=
  ∀ h p, st.dispatchLog.count (h, p) ≤ if p ∈ ledgerGet st.requests h then 1 else 0

/-- Each ledger entry records each peer at most once. -/
def ledgerWF (st : DState) : Prop :=
  ∀ h, (ledgerGet st.requests h).Nodup

/-- Combined request-ledger invariant. -/
def requestInv (st : DState) : Prop := dedupInv st ∧ ledgerWF st

/-- Across a completed acquisition, per-peer request count for the acquired
hash is at most one and every ledger entry is duplicate-free. -/
def dedupAcquisition (h : String) : Option (BlobFile × DState) → Prop
  | some (_, st') =>
    (∀ p, st'.dispatchLog.count (h, p) ≤ 1) ∧ ∀ h', (ledgerGet st'.requests h').Nodup
  | none => True

/-- A ledger entry present when `get_blob` starts is still present when it
returns (evictions never erase ledger entries). -/
def ledgerPersists (h' : String) (p : Peer) : Option (BlobFile × DState) → Prop
  | some (_, st') => p ∈ ledgerGet st'.requests h'
  | none => True

/-- A state predicate holds on the state carried by a loop-step result. -/
def stepHolds (P : DState → Prop) : StepResult → Prop
  | .done _ st' => P st'
  | .next st' => P st'

/-- A state predicate holds on the state carried by a completed `get_blob`
result (`none` = the loop is still spinning). -/
def optHolds (P : DState → Prop) : Option (BlobFile × DState) → Prop
  | some (_, st') => P st'
  | none => True

/-- Loop-step refinement of `returnsVerified`: a `return` statement hands back
the current blob, verified; otherwise `current_blob` is untouched. -/
def stepReturnsVerified (h : String) : StepResult → Prop
  | .done b st' => b = storeHandle h ∧ isVerified st' h = true
  | .next st' => st'.currentBlob = some (storeHandle h)

/-! ## Concrete fixtures for witnesses and sample runs -/

/-- A session with two connected peers, an earlier acquisition for hash `h0`
already on the ledger, and the `has_peers` event set. -/
def stTwoPeers : DState :=
  { currentBlob := none, verified := [], connections := [⟨1⟩, ⟨2⟩], hasPeers := true,
    tasks := [], outstanding := [], requests := [("h0", [⟨9⟩])], dispatchLog := [] }

/-- An environment schedule in which peer 1 times out (and is evicted) and
peer 2 then responds, letting the store verify the blob. -/
def roundsTwoPeers : List Round :=
  [⟨[(⟨1⟩, .timeout)], [], false⟩, ⟨[(⟨2⟩, .success)], [], true⟩]

/-- A session whose target blob is already verified in the store. -/
def stCacheHit : DState :=
  { currentBlob := none, verified := ["h1"], connections := [⟨1⟩], hasPeers := true,
    tasks := [], outstanding := [], requests := [], dispatchLog := [] }

/-- An orchestrator mid-download: both tasks running, two pooled peers. -/
def stOrch : OrchState :=
  { accumulatorTask := .running, downloadTask := .running, peerFinderStopped := false,
    connections := [⟨1⟩, ⟨2⟩], disconnectLog := [] }

/-! ## Ledger lemmas -/

theorem ledgerGet_insert (rs : List (String × List Peer)) (h h' : String) (p : Peer) :
    ledgerGet (ledgerInsert rs h p) h' =
      if h' = h then ledgerGet rs h ++ [p] else ledgerGet rs h' := by
  induction rs with
  | nil =>
    by_cases hh : h' = h
    · subst hh; simp [ledgerInsert, ledgerGet]
    · have hne : ¬ h = h' := fun e => hh e.symm
      simp [ledgerInsert, ledgerGet, hh, hne]
  | cons kv rest ih =>
    obtain ⟨k, ps⟩ := kv
    by_cases hk : k = h
    · subst hk
      by_cases hh : h' = k
      · subst hh; simp [ledgerInsert, ledgerGet]
      · have hne : ¬ k = h' := fun e => hh e.symm
        simp [ledgerInsert, ledgerGet, hh, hne]
    · by_cases hh : k = h'
      · have hne : ¬ h' = h := fun e => hk (hh.trans e)
        simp [ledgerInsert, ledgerGet, hk, hh, hne]
      · simp [ledgerInsert, ledgerGet, hk, hh, ih]

theorem ledgerGet_append_empty (rs : List (String × List Peer)) (h h' : String) :
    ledgerGet (rs ++ [(h, [])]) h' = ledgerGet rs h' := by
  induction rs with
  | nil => simp [ledgerGet]
  | cons kv rest ih =>
    obtain ⟨k, ps⟩ := kv
    by_cases hh : k = h'
    · simp [ledgerGet, hh]
    · simp [ledgerGet, hh, ih]

theorem mem_ledgerGet_insert {rs : List (String × List Peer)} {h' : String} {p : Peer}
    (h₀ : String) (p₀ : Peer) (hmem : p ∈ ledgerGet rs h') :
    p ∈ ledgerGet (ledgerInsert rs h₀ p₀) h' := by
  rw [ledgerGet_insert]
  split
  · next he => exact List.mem_append_left _ (he ▸ hmem)
  · exact hmem

/-! ## Request-ledger invariant preservation -/

theorem requestInv_of_eq {st st' : DState} (hr : st'.requests = st.requests)
    (hl : st'.dispatchLog = st.dispatchLog) (hinv : requestInv st) : requestInv st' := by
  obtain ⟨hd, hwf⟩ := hinv
  refine ⟨fun h p => ?_, fun h => ?_⟩
  · rw [hr, hl]; exact hd h p
  · rw [hr]; exact hwf h

theorem requestInv_dispatch {st : DState} {h : String} {p : Peer}
    (hmem : p ∉ ledgerGet st.requests h) (hinv : requestInv st) :
    requestInv
      { st with
        requests := ledgerInsert st.requests h p
        tasks := st.tasks ++ [p]
        dispatchLog := st.dispatchLog ++ [(h, p)] } := by
  obtain ⟨hd, hwf⟩ := hinv
  constructor
  · intro h' p'
    show (st.dispatchLog ++ [(h, p)]).count (h', p') ≤
      if p' ∈ ledgerGet (ledgerInsert st.requests h p) h' then 1 else 0
    rw [List.count_append, ledgerGet_insert]
    by_cases hpair : ((h : String), (p : Peer)) = (h', p')
    · cases hpair
      have h0 : st.dispatchLog.count (h, p) = 0 := by
        have hb := hd h p
        rw [if_neg hmem] at hb
        omega
      simp [h0, List.count_singleton']
    · have hpair' : ¬ ((h', p') = (h, p)) := fun e => hpair e.symm
      have hone : List.count (h', p') [(h, p)] = 0 := by
        simp [List.count_cons, beq_iff_eq, hpair']
      rw [hone, Nat.add_zero]
      by_cases hh : h' = h
      · subst hh
        by_cases hp' : p' ∈ ledgerGet st.requests h'
        · have hb := hd h' p'
          rw [if_pos hp'] at hb
          have hmem2 : p' ∈ ledgerGet st.requests h' ++ [p] := List.mem_append_left _ hp'
          rw [if_pos rfl, if_pos hmem2]
          exact hb
        · have hb := hd h' p'
          rw [if_neg hp'] at hb
          have h0 : st.dispatchLog.count (h', p') = 0 := by omega
          rw [h0]
          exact Nat.zero_le _
      · have hb := hd h' p'
        rw [if_neg hh]
        exact hb
  · intro h'
    show (ledgerGet (ledgerInsert st.requests h p) h').Nodup
    rw [ledgerGet_insert]
    split
    · next he =>
      subst he
      have := hwf h'
      simp [List.nodup_append, this, hmem]
    · exact hwf h'

theorem requestInv_uraux (h : String) (ps : List Peer) :
    ∀ st : DState, requestInv st → requestInv (updateRequestsAux h ps st) := by
  induction ps with
  | nil => intro st hinv; exact hinv
  | cons p rest ih =>
    intro st hinv
    show requestInv (updateRequestsAux h (p :: rest) st)
    rw [updateRequestsAux]
    split
    · exact ih st hinv
    · next hmem => exact ih _ (requestInv_dispatch hmem hinv)

theorem requestInv_updateRequests (st : DState) (hinv : requestInv st) :
    requestInv (updateRequests st) := by
  rw [updateRequests]
  split
  · exact hinv
  · next b hb =>
    split
    · exact requestInv_uraux _ _ _ hinv
    · refine requestInv_uraux _ _ _ ?_
      obtain ⟨hd, hwf⟩ := hinv
      constructor
      · intro h' p'
        show st.dispatchLog.count (h', p') ≤
          if p' ∈ ledgerGet (st.requests ++ [(b.blobHash, [])]) h' then 1 else 0
        rw [ledgerGet_append_empty]
        exact hd h' p'
      · intro h'
        show (ledgerGet (st.requests ++ [(b.blobHash, [])]) h').Nodup
        rw [ledgerGet_append_empty]
        exact hwf h'

/-! ## Projection lemmas for the environment steps -/

theorem foldl_proj {β γ : Type} (f : DState → β → DState) (proj : DState → γ)
    (hf : ∀ st b, proj (f st b) = proj st) :
    ∀ (l : List β) (st : DState), proj (List.foldl f st l) = proj st := by
  intro l
  induction l with
  | nil => intro st; rfl
  | cons b rest ih => intro st; rw [List.foldl_cons, ih, hf]

theorem applyFire_requests (st : DState) (f : Peer × FetchOutcome) :
    (applyFire st f).requests = st.requests := by
  rw [applyFire]
  split
  · split <;> rfl
  · rfl

theorem applyFire_dispatchLog (st : DState) (f : Peer × FetchOutcome) :
    (applyFire st f).dispatchLog = st.dispatchLog := by
  rw [applyFire]
  split
  · split <;> rfl
  · rfl

theorem applyFire_currentBlob (st : DState) (f : Peer × FetchOutcome) :
    (applyFire st f).currentBlob = st.currentBlob := by
  rw [applyFire]
  split
  · split <;> rfl
  · rfl

theorem applyVerify_requests (st : DState) (v : Bool) :
    (applyVerify st v).requests = st.requests := by
  rw [applyVerify]
  split
  · split <;> rfl
  · rfl

theorem applyVerify_dispatchLog (st : DState) (v : Bool) :
    (applyVerify st v).dispatchLog = st.dispatchLog := by
  rw [applyVerify]
  split
  · split <;> rfl
  · rfl

theorem applyVerify_currentBlob (st : DState) (v : Bool) :
    (applyVerify st v).currentBlob = st.currentBlob := by
  rw [applyVerify]
  split
  · split <;> rfl
  · rfl

theorem applyRound_requests (st : DState) (r : Round) :
    (applyRound st r).requests = st.requests := by
  rw [applyRound, applyVerify_requests,
    foldl_proj addPeer DState.requests (fun _ _ => rfl),
    foldl_proj applyFire DState.requests applyFire_requests]

theorem applyRound_dispatchLog (st : DState) (r : Round) :
    (applyRound st r).dispatchLog = st.dispatchLog := by
  rw [applyRound, applyVerify_dispatchLog,
    foldl_proj addPeer DState.dispatchLog (fun _ _ => rfl),
    foldl_proj applyFire DState.dispatchLog applyFire_dispatchLog]

theorem applyRound_currentBlob (st : DState) (r : Round) :
    (applyRound st r).currentBlob = st.currentBlob := by
  rw [applyRound, applyVerify_currentBlob,
    foldl_proj addPeer DState.currentBlob (fun _ _ => rfl),
    foldl_proj applyFire DState.currentBlob applyFire_currentBlob]

theorem updateRequestsAux_currentBlob (h : String) (ps : List Peer) :
    ∀ st : DState, (updateRequestsAux h ps st).currentBlob = st.currentBlob := by
  induction ps with
  | nil => intro st; rfl
  | cons p rest ih =>
    intro st
    rw [updateRequestsAux]
    split
    · exact ih st
    · rw [ih]

theorem updateRequests_currentBlob (st : DState) :
    (updateRequests st).currentBlob = st.currentBlob := by
  rw [updateRequests]
  split
  · rfl
  · split
    · rw [updateRequestsAux_currentBlob]
    · rw [updateRequestsAux_currentBlob]

/-! ## Ledger-entry persistence -/

theorem ledger_mem_uraux (h : String) (ps : List Peer) {h' : String} {p : Peer} :
    ∀ st : DState, p ∈ ledgerGet st.requests h' →
      p ∈ ledgerGet (updateRequestsAux h ps st).requests h' := by
  induction ps with
  | nil => intro st hmem; exact hmem
  | cons q rest ih =>
    intro st hmem
    rw [updateRequestsAux]
    split
    · exact ih st hmem
    · exact ih _ (mem_ledgerGet_insert h q hmem)

theorem ledger_mem_updateRequests {h' : String} {p : Peer} (st : DState)
    (hmem : p ∈ ledgerGet st.requests h') :
    p ∈ ledgerGet (updateRequests st).requests h' := by
  rw [updateRequests]
  split
  · exact hmem
  · split
    · exact ledger_mem_uraux _ _ _ hmem
    · refine ledger_mem_uraux _ _ _ ?_
      show p ∈ ledgerGet (st.requests ++ [(_, [])]) h'
      rw [ledgerGet_append_empty]
      exact hmem

/-! ## Generic preservation through the acquisition loop -/

theorem awaitPhase_preserve (h : String) (P : DState → Prop)
    (hAW : ∀ st r, P st → P (applyRound (popTasks st) r)) (st : DState) (r : Round)
    (hP : P st) : stepHolds P (awaitPhase st h r) := by
  simp only [awaitPhase]
  split
  · exact hAW st r hP
  · exact hAW st r hP

theorem loopIter_preserve (h : String) (P : DState → Prop)
    (hUR : ∀ st, P st → P (updateRequests st))
    (hHP : ∀ (st : DState) (b : Bool), P st → P { st with hasPeers := b })
    (hAW : ∀ st r, P st → P (applyRound (popTasks st) r)) (st : DState) (r : Round)
    (hP : P st) : stepHolds P (loopIter st h r) := by
  rw [loopIter]
  split
  · exact awaitPhase_preserve h P hAW _ r (hUR _ hP)
  · split
    · exact awaitPhase_preserve h P hAW _ r (hUR _ (hHP _ false (hUR _ (hHP st false hP))))
    · split
      · exact hP
      · exact awaitPhase_preserve h P hAW st r hP

theorem getBlobLoop_preserve (h : String) (P : DState → Prop)
    (hstep : ∀ st r, P st → stepHolds P (loopIter st h r)) :
    ∀ (fuel : Nat) (rounds : List Round) (st : DState), P st →
      optHolds P (getBlobLoop h fuel rounds st) := by
  intro fuel
  induction fuel with
  | zero => intro rounds st _; rw [getBlobLoop]; trivial
  | succ n ih =>
    intro rounds st hP
    rw [getBlobLoop]
    split
    · exact hP
    · cases hE : loopIter st h (nextRound rounds).1 with
      | done b st' =>
        have hres := hstep st (nextRound rounds).1 hP
        rw [hE] at hres
        exact hres
      | next st' =>
        have hres := hstep st (nextRound rounds).1 hP
        rw [hE] at hres
        exact ih (nextRound rounds).2 st' hres

/-! ## Verified-at-return facts for the acquisition loop -/

theorem awaitPhase_spec (st : DState) (h : String) (r : Round)
    (hcb : st.currentBlob = some (storeHandle h)) :
    stepReturnsVerified h (awaitPhase st h r) := by
  have hcb1 : (applyRound (popTasks st) r).currentBlob = some (storeHandle h) := by
    rw [applyRound_currentBlob]; exact hcb
  simp only [awaitPhase]
  split
  · next hv => exact ⟨by rw [hcb1]; rfl, hv⟩
  · exact hcb1

theorem loopIter_spec (st : DState) (h : String) (r : Round)
    (hcb : st.currentBlob = some (storeHandle h)) :
    stepReturnsVerified h (loopIter st h r) := by
  rw [loopIter]
  split
  · exact awaitPhase_spec _ h r (by rw [updateRequests_currentBlob]; exact hcb)
  · split
    · refine awaitPhase_spec _ h r ?_
      rw [updateRequests_currentBlob]
      show (updateRequests { st with hasPeers := false }).currentBlob = _
      rw [updateRequests_currentBlob]
      exact hcb
    · split
      · next hv => exact ⟨by rw [hcb]; rfl, hv⟩
      · exact awaitPhase_spec st h r hcb

theorem getBlobLoop_returnsVerified (h : String) :
    ∀ (fuel : Nat) (rounds : List Round) (st : DState),
      st.currentBlob = some (storeHandle h) →
      returnsVerified h (getBlobLoop h fuel rounds st) := by
  intro fuel
  induction fuel with
  | zero => intro rounds st _; rw [getBlobLoop]; trivial
  | succ n ih =>
    intro rounds st hcb
    rw [getBlobLoop]
    split
    · next hv => exact ⟨by rw [hcb]; rfl, hv⟩
    · cases hE : loopIter st h (nextRound rounds).1 with
      | done b st' =>
        have hres := loopIter_spec st h (nextRound rounds).1 hcb
        rw [hE] at hres
        exact hres
      | next st' =>
        have hres := loopIter_spec st h (nextRound rounds).1 hcb
        rw [hE] at hres
        exact ih (nextRound rounds).2 st' hres

/-! ## Instantiated preservation corollaries -/

theorem requestInv_loopIter (h : String) (st : DState) (r : Round)
    (hinv : requestInv st) : stepHolds requestInv (loopIter st h r) :=
  loopIter_preserve h requestInv
    (fun s hP => requestInv_updateRequests s hP)
    (fun _ _ hP => requestInv_of_eq rfl rfl hP)
    (fun s r' hP =>
      requestInv_of_eq (by rw [applyRound_requests]; rfl) (by rw [applyRound_dispatchLog]; rfl) hP)
    st r hinv

theorem requestInv_getBlob (h : String) (fuel : Nat) (rounds : List Round) (st : DState)
    (hinv : requestInv st) : optHolds requestInv (getBlob h fuel rounds st) := by
  rw [getBlob]
  split
  · exact requestInv_of_eq rfl rfl hinv
  · exact getBlobLoop_preserve h requestInv (fun s r hP => requestInv_loopIter h s r hP)
      fuel rounds _ (requestInv_updateRequests _ (requestInv_of_eq rfl rfl hinv))

theorem ledger_mem_getBlob (h' : String) (p : Peer) (h : String) (fuel : Nat)
    (rounds : List Round) (st : DState) (hmem : p ∈ ledgerGet st.requests h') :
    ledgerPersists h' p (getBlob h fuel rounds st) := by
  rw [getBlob]
  split
  · exact hmem
  · refine getBlobLoop_preserve h (fun s => p ∈ ledgerGet s.requests h') ?_ fuel rounds _
      (ledger_mem_updateRequests _ hmem)
    intro s r hP
    refine loopIter_preserve h (fun s => p ∈ ledgerGet s.requests h')
      (fun s hq => ledger_mem_updateRequests s hq) (fun _ _ hq => hq) ?_ s r hP
    intro s' r' hq
    show p ∈ ledgerGet (applyRound (popTasks s') r').requests h'
    rw [applyRound_requests]
    exact hq

/-! ## Helper lemmas for the junction, the orchestrator and the fixtures -/

theorem dictGet_dictSet (d : List (Nat × Bool)) (k : Nat) (v : Bool) :
    dictGet (dictSet d k v) k = some v := by
  induction d with
  | nil => simp [dictSet, dictGet]
  | cons kv rest ih =>
    obtain ⟨k', v'⟩ := kv
    by_cases hk : k' = k
    · simp [dictSet, dictGet, hk]
    · simp [dictSet, dictGet, hk, ih]

theorem dictSet_any_true (d : List (Nat × Bool)) (g : Nat) :
    (dictSet d g true).any (fun e => e.2) = true := by
  induction d with
  | nil => rfl
  | cons kv rest ih =>
    obtain ⟨k, v⟩ := kv
    by_cases hk : k = g
    · simp [dictSet, hk]
    · simp [dictSet, hk, ih]

theorem stop_stop (st : OrchState) : stop (stop st) = stop st := by
  obtain ⟨a, d, pf, cs, log⟩ := st
  cases a <;> cases d <;> simp [stop]

theorem stop_disconnectLog (st : OrchState) :
    (stop st).disconnectLog = st.disconnectLog ++ st.connections := by
  obtain ⟨a, d, pf, cs, log⟩ := st
  cases a <;> cases d <;> rfl

theorem stop_connections_nil (st : OrchState) : (stop st).connections = [] := by
  obtain ⟨a, d, pf, cs, log⟩ := st
  cases a <;> cases d <;> rfl

theorem requestInv_twoPeers : requestInv stTwoPeers := by
  constructor
  · intro h p
    show (([] : List (String × Peer)).count (h, p)) ≤ _
    simp
  · intro h
    show (ledgerGet [("h0", [(⟨9⟩ : Peer)])] h).Nodup
    simp only [ledgerGet]
    split
    · exact List.nodup_singleton _
    · simp [ledgerGet]

/-- Sanity check: the two-peer schedule (one timeout, one success) completes. -/
theorem get_blob_sample_completes :
    (getBlob "h1" 3 roundsTwoPeers stTwoPeers).isSome = true := by decide

/-! ## Claims -/

/-- C1: whenever `StreamDownloader.get_blob(blob_hash, length)` returns
normally, the returned handle is the store's handle for that hash
(`storeHandle h`) and `get_is_verified()` is true at the moment of return;
the fuel-exhausted outcome is `none`, so becoming verified is the only
success exit of the acquisition loop. -/
theorem get_blob_returns_verified (h : String) (fuel : Nat) (rounds : List Round)
    (st : DState) : returnsVerified h (getBlob h fuel rounds st) := by
  rw [getBlob]
  split
  · next hv => exact ⟨rfl, hv⟩
  · exact getBlobLoop_returnsVerified h fuel rounds _
      (by rw [updateRequests_currentBlob])

/-- C2: across one full acquisition (every re-dispatch pass included), the
ledger entry for the hash records each peer at most once and a recorded peer
is never dispatched again: the dispatch count per peer for the acquired hash
is at most 1 and every ledger entry is duplicate-free. -/
theorem get_blob_dedup (h : String) (fuel : Nat) (rounds : List Round) (st : DState)
    (hinv : requestInv st) : dedupAcquisition h (getBlob h fuel rounds st) := by
  have hopt := requestInv_getBlob h fuel rounds st hinv
  cases hres : getBlob h fuel rounds st with
  | none => trivial
  | some pr =>
    obtain ⟨b, st'⟩ := pr
    rw [hres] at hopt
    obtain ⟨hd, hwf⟩ := hopt
    exact ⟨fun p => le_trans (hd h p) (by split <;> omega), fun h' => hwf h'⟩

theorem get_blob_dedup_witness :
    requestInv stTwoPeers ∧
    dedupAcquisition "h1" (getBlob "h1" 3 roundsTwoPeers stTwoPeers) :=
  ⟨requestInv_twoPeers, get_blob_dedup "h1" 3 roundsTwoPeers stTwoPeers requestInv_twoPeers⟩

/-- C3 counterexample: eviction is not idempotent.  Evicting peer 1 from the
one-peer pool succeeds, but a second timeout-eviction event for the same peer
(pool now empty) raises `KeyError` (`set.remove` on an absent element)
instead of completing without error. -/
theorem evict_second_timeout_keyerror :
    requestBlob ⟨1⟩ .timeout [⟨1⟩] true = .ok ([], false) ∧
    requestBlob ⟨1⟩ .timeout [] false = .error .keyError :=
  ⟨rfl, rfl⟩

/-- C3 amended: a timed-out peer still in the pool is removed (clearing the
has-peers flag when the pool empties), and under the pool's no-duplicate
discipline the removal happens at most once; but a second timeout-eviction
event for a peer no longer pooled raises `KeyError` rather than completing
without error — the pool itself is left unchanged because the exception stays
inside that fetch task. -/
theorem evict_timeout_amended (p : Peer) (conns : List Peer) (hp : Bool) :
    (p ∈ conns →
      requestBlob p .timeout conns hp =
        .ok (conns.erase p, if (conns.erase p).isEmpty then false else hp)) ∧
    (p ∉ conns → requestBlob p .timeout conns hp = .error .keyError) ∧
    (conns.Nodup → p ∉ conns.erase p) ∧
    (∀ st : DState, p ∉ st.connections →
      (applyFire st (p, .timeout)).connections = st.connections) := by
  refine ⟨?_, ?_, ?_, ?_⟩
  · intro hmem
    simp only [requestBlob]
    rw [if_pos hmem]
  · intro hmem
    simp only [requestBlob]
    rw [if_neg hmem]
  · intro hnd
    exact hnd.not_mem_erase
  · intro st hmem
    rw [applyFire]
    split
    · simp only [requestBlob]
      rw [if_neg hmem]
    · rfl

theorem evict_timeout_amended_witness :
    ((⟨2⟩ : Peer) ∈ ([⟨2⟩, ⟨3⟩] : List Peer) ∧
      requestBlob ⟨2⟩ .timeout [⟨2⟩, ⟨3⟩] true =
        .ok (([⟨2⟩, ⟨3⟩] : List Peer).erase ⟨2⟩,
          if (([⟨2⟩, ⟨3⟩] : List Peer).erase ⟨2⟩).isEmpty then false else true)) ∧
    ((⟨5⟩ : Peer) ∉ ([⟨3⟩] : List Peer) ∧
      requestBlob ⟨5⟩ .timeout [⟨3⟩] true = .error .keyError) :=
  ⟨⟨by decide, (evict_timeout_amended ⟨2⟩ [⟨2⟩, ⟨3⟩] true).1 (by decide)⟩,
   ⟨by decide, (evict_timeout_amended ⟨5⟩ [⟨3⟩] true).2.1 (by decide)⟩⟩

/-- C4: when the handle is already verified at call time, `get_blob` returns
the store handle at once: the result is independent of the environment
schedule and fuel (no suspension), and the returned state differs from the
input only in `current_blob` — no fetch task is queued, the ledger and the
dispatch log are untouched. -/
theorem get_blob_cache_hit (h : String) (fuel : Nat) (rounds : List Round) (st : DState)
    (hv : isVerified st h = true) :
    getBlob h fuel rounds st =
      some (storeHandle h, { st with currentBlob := some (storeHandle h) }) := by
  have hv1 : isVerified { st with currentBlob := some (storeHandle h) } h = true := hv
  rw [getBlob, if_pos hv1]

theorem get_blob_cache_hit_witness :
    isVerified stCacheHit "h1" = true ∧
    getBlob "h1" 5 [] stCacheHit =
      some (storeHandle "h1", { stCacheHit with currentBlob := some (storeHandle "h1") }) :=
  ⟨by decide, get_blob_cache_hit "h1" 5 [] stCacheHit (by decide)⟩

/-- C5: a fetch timeout is never surfaced to the caller of `get_blob`: the
`_request_blob` coroutine never terminates with the `TimeoutError` (it
catches it and evicts the peer instead), and every ledger entry present when
`get_blob` starts is still present when it returns, so an evicted peer is
never re-asked for that chunk while the loop continues. -/
theorem peer_timeout_not_surfaced :
    (∀ (p : Peer) (oc : FetchOutcome) (conns : List Peer) (hp : Bool),
      requestBlob p oc conns hp ≠ Except.error PyError.timeoutError) ∧
    (∀ (h h' : String) (fuel : Nat) (rounds : List Round) (st : DState) (p : Peer),
      p ∈ ledgerGet st.requests h' → ledgerPersists h' p (getBlob h fuel rounds st)) := by
  constructor
  · intro p oc conns hp
    cases oc with
    | success => simp [requestBlob]
    | timeout =>
      simp only [requestBlob]
      split
      · simp
      · simp
  · intro h h' fuel rounds st p hmem
    exact ledger_mem_getBlob h' p h fuel rounds st hmem

theorem peer_timeout_not_surfaced_witness :
    (⟨9⟩ : Peer) ∈ ledgerGet stTwoPeers.requests "h0" ∧
    ledgerPersists "h0" ⟨9⟩ (getBlob "h1" 3 roundsTwoPeers stTwoPeers) :=
  ⟨by decide,
   peer_timeout_not_surfaced.2 "h1" "h0" 3 roundsTwoPeers stTwoPeers ⟨9⟩ (by decide)⟩

/-- C6: whatever the outcome of the assembly body (completion, exception,
cancellation), `_download`'s guaranteed-cleanup block runs `stop()` exactly
once, as the last effect before the outcome is reported upward, and the
reported outcome is the body's own. -/
theorem download_cleanup_always_runs (bodyTrace : List DEffect) (oc : AssemblyOutcome)
    (hbody : DEffect.stopCall ∉ bodyTrace) :
    (downloadRun bodyTrace oc).1.count DEffect.stopCall = 1 ∧
    (downloadRun bodyTrace oc).1.getLast? = some DEffect.stopCall ∧
    (downloadRun bodyTrace oc).2 = oc := by
  refine ⟨?_, ?_, rfl⟩
  · have h0 : bodyTrace.count DEffect.stopCall = 0 := List.count_eq_zero.mpr hbody
    simp [downloadRun, tryFinallyTrace, List.count_append, List.count_cons, h0]
  · show (DEffect.startAccumulator :: (bodyTrace ++ [DEffect.stopCall])).getLast? =
      some DEffect.stopCall
    rw [← List.cons_append]
    exact List.getLast?_concat _

theorem download_cleanup_witness :
    DEffect.stopCall ∉ [DEffect.assembleStream] ∧
    ((downloadRun [DEffect.assembleStream] .raised).1.count DEffect.stopCall = 1 ∧
      (downloadRun [DEffect.assembleStream] .raised).1.getLast? = some DEffect.stopCall ∧
      (downloadRun [DEffect.assembleStream] .raised).2 = .raised) :=
  ⟨by decide, download_cleanup_always_runs [DEffect.assembleStream] .raised (by decide)⟩

/-- C7: `stop()` is idempotent — repeating it any number of times gives the
same state as one call, the pool is empty after any call, and with the pool's
set discipline (no duplicates) and a fresh session log each pooled peer
receives at most one disconnect call ever. -/
theorem stop_idempotent :
    (∀ st : OrchState, stop (stop st) = stop st) ∧
    (∀ (st : OrchState) (n : Nat), stop^[n + 1] st = stop st) ∧
    (∀ st : OrchState, (stop st).connections = []) ∧
    (∀ (st : OrchState) (p : Peer), st.connections.Nodup → st.disconnectLog = [] →
      ((stop st).disconnectLog).count p ≤ 1) := by
  have hiter : ∀ (n : Nat) (st : OrchState), stop^[n + 1] st = stop st := by
    intro n
    induction n with
    | zero => intro st; rfl
    | succ m ih =>
      intro st
      rw [Function.iterate_succ_apply, ih (stop st), stop_stop]
  refine ⟨stop_stop, fun st n => hiter n st, stop_connections_nil, ?_⟩
  intro st p hnd hlog
  rw [stop_disconnectLog, hlog, List.nil_append]
  exact List.nodup_iff_count_le_one.1 hnd p

theorem stop_idempotent_witness :
    (stOrch.connections.Nodup ∧ stOrch.disconnectLog = []) ∧
    ((stop stOrch).disconnectLog.count ⟨1⟩ ≤ 1 ∧ stop (stop stOrch) = stop stOrch) :=
  ⟨⟨by decide, rfl⟩,
   ⟨stop_idempotent.2.2.2 stOrch ⟨1⟩ (by decide) rfl, stop_idempotent.1 stOrch⟩⟩

/-- C8: `__anext__` raises `StopAsyncIteration` exactly when no registered
source is marked running; registering a generator (even after all prior ones
finished) marks it running, so the merger reports itself running again and
iteration resumes instead of terminating. -/
theorem junction_completion_iff_running :
    (∀ st : JState, isStopSignal (anext st) = !junctionRunning st) ∧
    (∀ (st : JState) (g : Nat), junctionRunning (add_generator st g) = true) ∧
    (∀ (st : JState) (g : Nat), isStopSignal (anext (add_generator st g)) = false) := by
  have h1 : ∀ st : JState, isStopSignal (anext st) = !junctionRunning st := by
    intro st
    rw [anext]
    split
    · next hr =>
      rw [hr]
      cases st.queue <;> rfl
    · next hr =>
      have hf : junctionRunning st = false := by
        revert hr; cases junctionRunning st <;> simp
      rw [hf]
      rfl
  have h2 : ∀ (st : JState) (g : Nat), junctionRunning (add_generator st g) = true := by
    intro st g
    exact dictSet_any_true st.runningIterators g
  refine ⟨h1, h2, fun st g => ?_⟩
  rw [h1, h2]
  rfl

/-- C9 counterexample: a registered source that raises is NOT marked
inactive — after its `iterate` task dies on the exception, its
`running_iterators` entry is still `true`, never `false` (the claim says it
becomes false). -/
theorem raised_source_stays_marked_running :
    dictGet (iterateGen (add_generator ⟨[], []⟩ 0) 0 [5] .raised).runningIterators 0 =
      some true ∧
    ¬ dictGet (iterateGen (add_generator ⟨[], []⟩ 0) 0 [5] .raised).runningIterators 0 =
      some false :=
  ⟨by decide, by decide⟩

/-- C9 amended: only a source that exhausts normally is marked inactive; a
source that raises leaves `running_iterators` untouched (the clearing
assignment follows the `async for` with no try/finally), so its entry stays
as it was — in particular a just-registered source that raises still counts
as running and keeps the merger from completing. -/
theorem iterate_flag_amended (st : JState) (g : Nat) (items : List Nat) :
    dictGet (iterateGen st g items .exhausted).runningIterators g = some false ∧
    (iterateGen st g items .raised).runningIterators = st.runningIterators ∧
    junctionRunning (iterateGen (add_generator st g) g items .raised) = true := by
  refine ⟨?_, rfl, ?_⟩
  · exact dictGet_dictSet st.runningIterators g false
  · exact dictSet_any_true st.runningIterators g

/-- C10: whenever no registered generator is marked running, `__anext__`
raises `StopAsyncIteration` at once — the stop branch never reads the queue,
so pending queued items are ignored; completion is decided solely by the
running flags. -/
theorem anext_stop_ignores_queue (st : JState) (hr : junctionRunning st = false) :
    anext st = .stopAsyncIteration := by
  have hne : ¬ junctionRunning st = true := by
    rw [hr]; exact Bool.false_ne_true
  rw [anext, if_neg hne]

theorem anext_stop_ignores_queue_witness :
    junctionRunning ⟨[7], [(0, false)]⟩ = false ∧
    (⟨[7], [(0, false)]⟩ : JState).queue ≠ [] ∧
    anext ⟨[7], [(0, false)]⟩ = .stopAsyncIteration :=
  ⟨by decide, by decide, anext_stop_ignores_queue ⟨[7], [(0, false)]⟩ (by decide)⟩

end Lbrynet
